import Mathlib

/-!
# Verification of the pagination core of `my-pdf-converter`

Shallow embedding of the paginator logic of `src/js/app.js`:

* `sliceLoop` / `htmlPaginate` / `htmlStringToPdfSlices` — the canvas
  slicing loop of `htmlStringToPdf` (app.js lines 416-447);
* `txtLoop` / `convertTxtLayout` — the text placement loop of
  `convertTxt` (app.js lines 286-313);
* `convertImageLayout` — the scale-to-fit placement of `convertImage`
  (app.js lines 338-367);
* `splitOnDot` / `getExtension` / `isValidFile` — the file-type check
  (app.js lines 56-64).

JavaScript numbers are modelled by exact rationals (`ℚ`);
`Math.round` is modelled by `jsRound` (floor of x + 1/2, which is the
JavaScript rounding rule).
-/

/-- JavaScript `Math.round`: floor of `x + 1/2`. -/
def jsRound (x : ℚ) : ℤ := Int.floor (x + 1/2)

/-- One emitted page slice of the tall canvas, as produced by one
iteration of the `while (remaining > 0)` loop of `htmlStringToPdf`:
`srcY`/`sliceH` are in destination (pt) units, `slicePx` is the rounded
pixel height handed to `drawImage`, and `newPageBefore` records whether
`doc.addPage()` was called before this slice (`if (srcY > 0)`). -/
structure Slice where
  srcY : ℚ
  sliceH : ℚ
  slicePx : ℤ
  newPageBefore : Bool
deriving DecidableEq, Repr

/-- The slicing loop of `htmlStringToPdf`:
`while (remaining > 0) { sliceH = min(remaining, pageHeight);
slicePx = round(sliceH * ratio); ... if (srcY > 0) addPage();
srcY += sliceH; remaining -= sliceH }`. -/
def sliceLoop (pageHeight ratio : ℚ) (hP : 0 < pageHeight)
    (srcY remaining : ℚ) : List Slice :=
  if h : 0 < remaining then
    let sliceH := min remaining pageHeight
    { srcY := srcY, sliceH := sliceH, slicePx := jsRound (sliceH * ratio),
      newPageBefore := decide (0 < srcY) } ::
      sliceLoop pageHeight ratio hP (srcY + sliceH) (remaining - sliceH)
  else []
termination_by (Int.ceil (remaining / pageHeight)).toNat
decreasing_by
  rcases le_or_lt remaining pageHeight with hle | hlt
  · have h1 : (remaining - remaining ⊓ pageHeight) / pageHeight = 0 := by
      rw [inf_eq_left.mpr hle, sub_self, zero_div]
    have h3 : (0:ℤ) < Int.ceil (remaining / pageHeight) :=
      Int.ceil_pos.mpr (div_pos h hP)
    rw [h1, Int.ceil_zero]
    omega
  · have h1 : (remaining - remaining ⊓ pageHeight) / pageHeight
        = remaining / pageHeight - 1 := by
      rw [inf_eq_right.mpr hlt.le]
      field_simp
    have h3 : (1:ℤ) < Int.ceil (remaining / pageHeight) := by
      rw [Int.lt_ceil]
      push_cast
      exact (one_lt_div hP).mpr hlt
    rw [h1, Int.ceil_sub_one]
    omega

/-- The tall-content image paginator: runs the slicing loop from
`srcY = 0` over the whole destination-unit image height. -/
def htmlPaginate (pageHeight ratio : ℚ) (hP : 0 < pageHeight)
    (imgH : ℚ) : List Slice :=
  sliceLoop pageHeight ratio hP 0 imgH

/-- The concrete pipeline of `htmlStringToPdf`: jsPDF A4 page
(595.28 × 841.89 pt), `margin = 0`, `imgW = pageWidth - margin * 2`,
`ratio = canvas.width / imgW`, `imgH = canvas.height / ratio`, then the
slicing loop. -/
def htmlStringToPdfSlices (canvasW canvasH : ℚ) : List Slice :=
  let pageWidth : ℚ := 59528/100
  let pageHeight : ℚ := 84189/100
  let margin : ℚ := 0
  let imgW := pageWidth - margin * 2
  let ratio := canvasW / imgW
  let imgH := canvasH / ratio
  sliceLoop pageHeight ratio (by norm_num) 0 imgH

/-- One placed text line of `convertTxt`: the line text, the 0-based
physical page it lands on, and its baseline y coordinate. -/
structure TextPlaced where
  line : String
  page : ℕ
  y : ℚ
deriving DecidableEq, Repr

/-- The line placement loop of `convertTxt`:
`for each line: if (y + lineHeight > pageHeight - margin) { addPage();
y = margin + 20 } ; text(line, margin, y); y += lineHeight`. -/
def txtLoop (pageHeight margin lineHeight : ℚ) (y : ℚ) (page : ℕ) :
    List String → List TextPlaced
  | [] => []
  | l :: ls =>
    if pageHeight - margin < y + lineHeight then
      { line := l, page := page + 1, y := margin + 20 } ::
        txtLoop pageHeight margin lineHeight (margin + 20 + lineHeight)
          (page + 1) ls
    else
      { line := l, page := page, y := y } ::
        txtLoop pageHeight margin lineHeight (y + lineHeight) page ls

/-- The text paginator of `convertTxt` at the code's constants:
A4 page height 841.89 pt, `margin = 50`, `lineHeight = 15`, starting
baseline `y = margin + 20` on page 0. -/
def convertTxtLayout (lines : List String) : List TextPlaced :=
  txtLoop (84189/100) 50 15 (50 + 20) 0 lines

/-- The placement rectangle computed by `convertImage` for one image. -/
structure ImgPlacement where
  x : ℚ
  y : ℚ
  w : ℚ
  h : ℚ
deriving DecidableEq, Repr

/-- The scale-to-fit placement of `convertImage`: A4 page, `margin = 40`,
`scale = Math.min(maxW / imgW, maxH / imgH, 1)`, image centered in the
usable area; exactly one `addImage` call, so a one-element list. -/
def convertImageLayout (imgW imgH : ℚ) : List ImgPlacement :=
  let pageWidth : ℚ := 59528/100
  let pageHeight : ℚ := 84189/100
  let margin : ℚ := 40
  let maxW := pageWidth - margin * 2
  let maxH := pageHeight - margin * 2
  let scale := min (min (maxW / imgW) (maxH / imgH)) 1
  let w := imgW * scale
  let h := imgH * scale
  [{ x := margin + (maxW - w) / 2, y := margin + (maxH - h) / 2,
     w := w, h := h }]

/-- JavaScript `name.split('.')` specialised to the dot separator, on
the character list of the file name. -/
def splitOnDot : List Char → List (List Char)
  | [] => [[]]
  | c :: rest =>
    let r := splitOnDot rest
    if c = '.' then [] :: r
    else (c :: r.headD []) :: r.tail

/-- `ACCEPTED_EXTENSIONS` from app.js. -/
def ACCEPTED_EXTENSIONS : List (List Char) :=
  [".docx".toList, ".txt".toList, ".html".toList,
   ".png".toList, ".jpg".toList, ".jpeg".toList]

/-- `getExtension`: `'.' + file.name.split('.').pop().toLowerCase()`. -/
def getExtension (name : List Char) : List Char :=
  '.' :: ((splitOnDot name).getLastD []).map Char.toLower

/-- `isValidFile`: membership of the extracted extension in
`ACCEPTED_EXTENSIONS`. -/
def isValidFile (name : List Char) : Bool :=
  ACCEPTED_EXTENSIONS.contains (getExtension name)

/-- The physical PDF page on which slice `i` lands: the number of
`doc.addPage()` calls issued up to and including the placement of that
slice (the document opens on page 0). -/
def pagesBefore (slices : List Slice) (i : ℕ) : ℕ :=
  (slices.take (i + 1)).countP (fun sl => sl.newPageBefore)

/-! ## Helper lemmas about the slicing loop -/

theorem sliceLoop_pos_eq (pageHeight ratio : ℚ) (hP : 0 < pageHeight)
    (srcY remaining : ℚ) (h : 0 < remaining) :
    sliceLoop pageHeight ratio hP srcY remaining =
      { srcY := srcY, sliceH := min remaining pageHeight,
        slicePx := jsRound (min remaining pageHeight * ratio),
        newPageBefore := decide (0 < srcY) } ::
        sliceLoop pageHeight ratio hP (srcY + min remaining pageHeight)
          (remaining - min remaining pageHeight) := by
  rw [sliceLoop]
  simp [h]

theorem sliceLoop_nonpos_eq (pageHeight ratio : ℚ) (hP : 0 < pageHeight)
    (srcY remaining : ℚ) (h : remaining ≤ 0) :
    sliceLoop pageHeight ratio hP srcY remaining = [] := by
  rw [sliceLoop]
  simp [not_lt.mpr h]

/-- Structural induction principle for the slicing loop, phrased with
`min` spelled out. -/
theorem sliceLoop_induction (pageHeight ratio : ℚ) (hP : 0 < pageHeight)
    (motive : ℚ → ℚ → Prop)
    (step : ∀ srcY remaining, 0 < remaining →
      motive (srcY + min remaining pageHeight)
        (remaining - min remaining pageHeight) →
      motive srcY remaining)
    (base : ∀ srcY remaining, remaining ≤ 0 → motive srcY remaining) :
    ∀ srcY remaining, motive srcY remaining := by
  apply sliceLoop.induct pageHeight ratio hP motive
  · intro srcY remaining h sliceH ih
    exact step srcY remaining h ih
  · intro srcY remaining h
    exact base srcY remaining (not_lt.mp h)

theorem sliceLoop_sum (pageHeight ratio : ℚ) (hP : 0 < pageHeight) :
    ∀ srcY remaining : ℚ, 0 ≤ remaining →
      ((sliceLoop pageHeight ratio hP srcY remaining).map Slice.sliceH).sum
        = remaining := by
  apply sliceLoop_induction pageHeight ratio hP
    (fun srcY remaining => 0 ≤ remaining →
      ((sliceLoop pageHeight ratio hP srcY remaining).map Slice.sliceH).sum
        = remaining)
  · intro srcY remaining h ih _
    rw [sliceLoop_pos_eq pageHeight ratio hP srcY remaining h]
    have hm : (0:ℚ) ≤ remaining - min remaining pageHeight := by
      have := min_le_left remaining pageHeight
      linarith
    simp only [List.map_cons, List.sum_cons, ih hm]
    ring
  · intro srcY remaining h h0
    rw [sliceLoop_nonpos_eq pageHeight ratio hP srcY remaining h]
    have : remaining = 0 := le_antisymm h h0
    simp [this]

theorem sliceLoop_length (pageHeight ratio : ℚ) (hP : 0 < pageHeight) :
    ∀ srcY remaining : ℚ,
      (sliceLoop pageHeight ratio hP srcY remaining).length
        = (Int.ceil (remaining / pageHeight)).toNat := by
  apply sliceLoop_induction pageHeight ratio hP
    (fun srcY remaining =>
      (sliceLoop pageHeight ratio hP srcY remaining).length
        = (Int.ceil (remaining / pageHeight)).toNat)
  · intro srcY remaining h ih
    rw [sliceLoop_pos_eq pageHeight ratio hP srcY remaining h]
    simp only [List.length_cons, ih]
    rcases le_or_lt remaining pageHeight with hle | hlt
    · have h1 : remaining - min remaining pageHeight = 0 := by
        rw [min_eq_left hle]; ring
      have h2 : Int.ceil (remaining / pageHeight) = 1 := by
        have hpos : (0:ℤ) < Int.ceil (remaining / pageHeight) :=
          Int.ceil_pos.mpr (div_pos h hP)
        have hle1 : Int.ceil (remaining / pageHeight) ≤ 1 := by
          apply Int.ceil_le.mpr
          push_cast
          exact (div_le_one hP).mpr hle
        omega
      rw [h1, h2]
      simp
    · have h1 : (remaining - min remaining pageHeight) / pageHeight
          = remaining / pageHeight - 1 := by
        rw [min_eq_right hlt.le]
        field_simp
      have h3 : (1:ℤ) < Int.ceil (remaining / pageHeight) := by
        rw [Int.lt_ceil]
        push_cast
        exact (one_lt_div hP).mpr hlt
      rw [h1, Int.ceil_sub_one]
      omega
  · intro srcY remaining h
    rw [sliceLoop_nonpos_eq pageHeight ratio hP srcY remaining h]
    have : Int.ceil (remaining / pageHeight) ≤ 0 := by
      apply Int.ceil_le.mpr
      push_cast
      exact div_nonpos_of_nonpos_of_nonneg h hP.le
    simp [Int.toNat_of_nonpos this]

theorem sliceLoop_srcY_le (pageHeight ratio : ℚ) (hP : 0 < pageHeight) :
    ∀ srcY remaining : ℚ,
      ∀ sl ∈ sliceLoop pageHeight ratio hP srcY remaining, srcY ≤ sl.srcY := by
  apply sliceLoop_induction pageHeight ratio hP
    (fun srcY remaining =>
      ∀ sl ∈ sliceLoop pageHeight ratio hP srcY remaining, srcY ≤ sl.srcY)
  · intro srcY remaining h ih sl hsl
    rw [sliceLoop_pos_eq pageHeight ratio hP srcY remaining h] at hsl
    rcases List.mem_cons.mp hsl with heq | hmem
    · rw [heq]
    · have hmin : 0 < min remaining pageHeight := lt_min h hP
      have := ih sl hmem
      linarith
  · intro srcY remaining h sl hsl
    rw [sliceLoop_nonpos_eq pageHeight ratio hP srcY remaining h] at hsl
    simp at hsl

theorem sliceLoop_sliceH_pos (pageHeight ratio : ℚ) (hP : 0 < pageHeight) :
    ∀ srcY remaining : ℚ,
      ∀ sl ∈ sliceLoop pageHeight ratio hP srcY remaining,
        0 < sl.sliceH ∧ sl.sliceH ≤ pageHeight := by
  apply sliceLoop_induction pageHeight ratio hP
    (fun srcY remaining =>
      ∀ sl ∈ sliceLoop pageHeight ratio hP srcY remaining,
        0 < sl.sliceH ∧ sl.sliceH ≤ pageHeight)
  · intro srcY remaining h ih sl hsl
    rw [sliceLoop_pos_eq pageHeight ratio hP srcY remaining h] at hsl
    rcases List.mem_cons.mp hsl with heq | hmem
    · rw [heq]
      exact ⟨lt_min h hP, min_le_right _ _⟩
    · exact ih sl hmem
  · intro srcY remaining h sl hsl
    rw [sliceLoop_nonpos_eq pageHeight ratio hP srcY remaining h] at hsl
    simp at hsl

theorem sliceLoop_srcY_add_le (pageHeight ratio : ℚ) (hP : 0 < pageHeight) :
    ∀ srcY remaining : ℚ,
      ∀ sl ∈ sliceLoop pageHeight ratio hP srcY remaining,
        sl.srcY + sl.sliceH ≤ srcY + max remaining 0 := by
  apply sliceLoop_induction pageHeight ratio hP
    (fun srcY remaining =>
      ∀ sl ∈ sliceLoop pageHeight ratio hP srcY remaining,
        sl.srcY + sl.sliceH ≤ srcY + max remaining 0)
  · intro srcY remaining h ih sl hsl
    rw [sliceLoop_pos_eq pageHeight ratio hP srcY remaining h] at hsl
    have hminr : min remaining pageHeight ≤ remaining := min_le_left _ _
    have hmax : max remaining 0 = remaining := max_eq_left h.le
    rcases List.mem_cons.mp hsl with heq | hmem
    · rw [heq, hmax]
      simp only
      linarith
    · have := ih sl hmem
      have hmax2 : max (remaining - min remaining pageHeight) 0
          = remaining - min remaining pageHeight := by
        apply max_eq_left
        linarith
      rw [hmax2] at this
      rw [hmax]
      linarith
  · intro srcY remaining h sl hsl
    rw [sliceLoop_nonpos_eq pageHeight ratio hP srcY remaining h] at hsl
    simp at hsl

theorem sliceLoop_pairwise (pageHeight ratio : ℚ) (hP : 0 < pageHeight) :
    ∀ srcY remaining : ℚ,
      (sliceLoop pageHeight ratio hP srcY remaining).Pairwise
        (fun a b => a.srcY < b.srcY) := by
  apply sliceLoop_induction pageHeight ratio hP
    (fun srcY remaining =>
      (sliceLoop pageHeight ratio hP srcY remaining).Pairwise
        (fun a b => a.srcY < b.srcY))
  · intro srcY remaining h ih
    rw [sliceLoop_pos_eq pageHeight ratio hP srcY remaining h]
    refine List.pairwise_cons.mpr ⟨?_, ih⟩
    intro sl hsl
    have hle := sliceLoop_srcY_le pageHeight ratio hP _ _ sl hsl
    have hmin : 0 < min remaining pageHeight := lt_min h hP
    simp only
    linarith
  · intro srcY remaining h
    rw [sliceLoop_nonpos_eq pageHeight ratio hP srcY remaining h]
    exact List.Pairwise.nil

theorem sliceLoop_newPage_decide (pageHeight ratio : ℚ) (hP : 0 < pageHeight) :
    ∀ srcY remaining : ℚ,
      ∀ sl ∈ sliceLoop pageHeight ratio hP srcY remaining,
        sl.newPageBefore = decide (0 < sl.srcY) := by
  apply sliceLoop_induction pageHeight ratio hP
    (fun srcY remaining =>
      ∀ sl ∈ sliceLoop pageHeight ratio hP srcY remaining,
        sl.newPageBefore = decide (0 < sl.srcY))
  · intro srcY remaining h ih sl hsl
    rw [sliceLoop_pos_eq pageHeight ratio hP srcY remaining h] at hsl
    rcases List.mem_cons.mp hsl with heq | hmem
    · rw [heq]
    · exact ih sl hmem
  · intro srcY remaining h sl hsl
    rw [sliceLoop_nonpos_eq pageHeight ratio hP srcY remaining h] at hsl
    simp at hsl

theorem sliceLoop_newPage_of_pos (pageHeight ratio : ℚ) (hP : 0 < pageHeight)
    (srcY remaining : ℚ) (hs : 0 < srcY) :
    ∀ sl ∈ sliceLoop pageHeight ratio hP srcY remaining,
      sl.newPageBefore = true := by
  intro sl hsl
  have hle := sliceLoop_srcY_le pageHeight ratio hP srcY remaining sl hsl
  have hpos : 0 < sl.srcY := lt_of_lt_of_le hs hle
  rw [sliceLoop_newPage_decide pageHeight ratio hP srcY remaining sl hsl]
  exact decide_eq_true hpos

/-! ## Helper lemmas about the text placement loop -/

theorem txtLoop_map_line (pageHeight margin lineHeight : ℚ) :
    ∀ (ls : List String) (y : ℚ) (page : ℕ),
      (txtLoop pageHeight margin lineHeight y page ls).map TextPlaced.line
        = ls := by
  intro ls
  induction ls with
  | nil => intro y page; simp [txtLoop]
  | cons l ls ih =>
      intro y page
      unfold txtLoop
      split <;> simp [ih]

/-- The relation between two consecutively placed lines in `convertTxt`:
after placing `p` the running baseline is `p.y + lineHeight`; if placing
the next line at that baseline would cross `pageHeight - margin`, the
next line opens a new page at baseline `margin + 20`, otherwise it stays
on the same page one `lineHeight` lower. -/
def txtStep (pageHeight margin lineHeight : ℚ) (p q : TextPlaced) : Prop :=
  if pageHeight - margin < p.y + lineHeight + lineHeight then
    q.page = p.page + 1 ∧ q.y = margin + 20
  else
    q.page = p.page ∧ q.y = p.y + lineHeight

/-- The first element placed by `txtLoop` on a nonempty line list. -/
theorem txtLoop_head (pageHeight margin lineHeight : ℚ) (y : ℚ) (page : ℕ)
    (l : String) (ls : List String) :
    (txtLoop pageHeight margin lineHeight y page (l :: ls)).head?
      = some (if pageHeight - margin < y + lineHeight then
          { line := l, page := page + 1, y := margin + 20 }
        else { line := l, page := page, y := y }) := by
  unfold txtLoop
  split <;> simp

/-- The head of a continuation of the placement loop relates to the
previously placed line `p` by `txtStep`, when the loop resumes from the
post-`p` state `(p.y + lineHeight, p.page)`. -/
theorem txtLoop_head_step (pageHeight margin lineHeight : ℚ)
    (p : TextPlaced) (l : String) (ls : List String) :
    ∀ q ∈ (txtLoop pageHeight margin lineHeight (p.y + lineHeight) p.page
        (l :: ls)).head?, txtStep pageHeight margin lineHeight p q := by
  intro q hq
  rw [txtLoop_head] at hq
  simp only [Option.mem_def, Option.some.injEq] at hq
  subst hq
  unfold txtStep
  by_cases hc : pageHeight - margin < p.y + lineHeight + lineHeight
  · simp [if_pos hc]
  · simp [if_neg hc]

theorem txtLoop_chain (pageHeight margin lineHeight : ℚ) :
    ∀ (ls : List String) (y : ℚ) (page : ℕ),
      (txtLoop pageHeight margin lineHeight y page ls).Chain'
        (txtStep pageHeight margin lineHeight) := by
  intro ls
  induction ls with
  | nil => intro y page; simp [txtLoop]
  | cons l ls ih =>
      intro y page
      cases ls with
      | nil =>
          unfold txtLoop
          split <;> simp [txtLoop]
      | cons l2 ls2 =>
          unfold txtLoop
          split
          · exact List.chain'_cons'.mpr
              ⟨txtLoop_head_step pageHeight margin lineHeight
                { line := l, page := page + 1, y := margin + 20 } l2 ls2,
               ih _ _⟩
          · exact List.chain'_cons'.mpr
              ⟨txtLoop_head_step pageHeight margin lineHeight
                { line := l, page := page, y := y } l2 ls2,
               ih _ _⟩

theorem sliceLoop_slicePx_eq (pageHeight ratio : ℚ) (hP : 0 < pageHeight) :
    ∀ srcY remaining : ℚ,
      ∀ sl ∈ sliceLoop pageHeight ratio hP srcY remaining,
        sl.slicePx = jsRound (sl.sliceH * ratio) := by
  apply sliceLoop_induction pageHeight ratio hP
    (fun srcY remaining =>
      ∀ sl ∈ sliceLoop pageHeight ratio hP srcY remaining,
        sl.slicePx = jsRound (sl.sliceH * ratio))
  · intro srcY remaining h ih sl hsl
    rw [sliceLoop_pos_eq pageHeight ratio hP srcY remaining h] at hsl
    rcases List.mem_cons.mp hsl with heq | hmem
    · rw [heq]
    · exact ih sl hmem
  · intro srcY remaining h sl hsl
    rw [sliceLoop_nonpos_eq pageHeight ratio hP srcY remaining h] at hsl
    simp at hsl

/-- The bottom row of the source rectangle read by each `drawImage`
call (`srcY * ratio + slicePx`) overshoots the canvas bottom by at most
half a pixel. -/
theorem sliceLoop_px_bottom_le (pageHeight ratio : ℚ) (hP : 0 < pageHeight)
    (hr : 0 ≤ ratio) (srcY remaining : ℚ) :
    ∀ sl ∈ sliceLoop pageHeight ratio hP srcY remaining,
      (sl.srcY * ratio + (sl.slicePx : ℚ))
        ≤ (srcY + max remaining 0) * ratio + 1/2 := by
  intro sl hsl
  have hpx := sliceLoop_slicePx_eq pageHeight ratio hP srcY remaining sl hsl
  have hadd := sliceLoop_srcY_add_le pageHeight ratio hP srcY remaining sl hsl
  have h1 : (sl.slicePx : ℚ) ≤ sl.sliceH * ratio + 1/2 := by
    rw [hpx]
    exact Int.floor_le _
  have h2 : (sl.srcY + sl.sliceH) * ratio ≤ (srcY + max remaining 0) * ratio :=
    mul_le_mul_of_nonneg_right hadd hr
  nlinarith [h1, h2]

/-- On a slice list whose new-page flags are `true` exactly away from
index 0, the number of `addPage` directives seen up to slice `i` is `i`:
slice `i` lands on physical page `i`. -/
theorem pagesBefore_eq_index (l : List Slice)
    (hl : ∀ i (h : i < l.length), (l.get ⟨i, h⟩).newPageBefore = true ↔ i ≠ 0) :
    ∀ i, i < l.length → pagesBefore l i = i := by
  intro i
  induction i with
  | zero =>
      intro hi
      cases l with
      | nil => simp at hi
      | cons a t =>
          have h0 := hl 0 hi
          simp only [List.length_cons, List.get] at h0
          have ha : a.newPageBefore = false := by
            simpa using h0
          unfold pagesBefore
          simp [List.countP_cons, ha]
  | succ j ihj =>
      intro hi
      have hj : j < l.length := Nat.lt_of_succ_lt hi
      have hnp : l[j + 1].newPageBefore = true := by
        have hx := (hl (j + 1) hi).mpr (Nat.succ_ne_zero j)
        simpa [List.get_eq_getElem] using hx
      have hget : l[j + 1]? = some l[j + 1] := List.getElem?_eq_getElem hi
      unfold pagesBefore at ihj ⊢
      rw [List.take_succ, List.countP_append, ihj hj, hget]
      simp [List.countP_cons, hnp]

/-! ## Helper lemmas about the file-type check -/

theorem splitOnDot_no_dot (name : List Char) (h : '.' ∉ name) :
    splitOnDot name = [name] := by
  induction name with
  | nil => rfl
  | cons c rest ih =>
      have hc : c ≠ '.' := by
        intro hh
        exact h (by simp [hh])
      have hr : '.' ∉ rest := by
        intro hh
        exact h (List.mem_cons_of_mem _ hh)
      unfold splitOnDot
      rw [if_neg hc, ih hr]
      simp

theorem getExtension_no_dot (name : List Char) (h : '.' ∉ name) :
    getExtension name = '.' :: name.map Char.toLower := by
  unfold getExtension
  rw [splitOnDot_no_dot name h]
  rfl

/-! ## Claim theorems -/

/-- Positivity of the A4 page height used in the concrete scenarios. -/
theorem h842 : (0:ℚ) < 842 := by norm_num

/-- Full evaluation of the slicing loop on the spec's A4 scenario:
page 595×842, margins 0, source image 794×3000 px, so
`ratio = 794/595` and `imgH = 3000/(794/595)` destination points. -/
theorem scenario_eval :
    htmlPaginate 842 (794/595) h842 ((3000:ℚ) / (794/595))
      = [{ srcY := 0, sliceH := 842, slicePx := 1124, newPageBefore := false },
         { srcY := 842, sliceH := 842, slicePx := 1124, newPageBefore := true },
         { srcY := 1684, sliceH := 223952/397, slicePx := 753,
           newPageBefore := true }] := by
  unfold htmlPaginate
  rw [sliceLoop_pos_eq _ _ _ _ _ (by norm_num)]
  norm_num [min_def, jsRound, Int.floor_eq_iff]
  rw [sliceLoop_pos_eq _ _ _ _ _ (by norm_num)]
  norm_num [min_def, jsRound, Int.floor_eq_iff]
  rw [sliceLoop_pos_eq _ _ _ _ _ (by norm_num)]
  norm_num [min_def, jsRound, Int.floor_eq_iff]
  rw [sliceLoop_nonpos_eq _ _ _ _ _ (by norm_num)]

/-- C1: for every source image of destination-unit height H > 0 and
every positive usable page height, the slicing loop of
`htmlStringToPdf` emits exactly ⌈H / usablePageHeight⌉ slices and the
destination heights of the emitted slices sum to exactly H. -/
theorem C1_slice_count_and_height_sum (pageHeight ratio imgH : ℚ)
    (hP : 0 < pageHeight) (hH : 0 < imgH) :
    (((htmlPaginate pageHeight ratio hP imgH).length : ℤ)
        = Int.ceil (imgH / pageHeight)) ∧
    ((htmlPaginate pageHeight ratio hP imgH).map Slice.sliceH).sum = imgH := by
  constructor
  · unfold htmlPaginate
    rw [sliceLoop_length pageHeight ratio hP 0 imgH]
    have hpos : (0:ℤ) < Int.ceil (imgH / pageHeight) :=
      Int.ceil_pos.mpr (div_pos hH hP)
    omega
  · exact sliceLoop_sum pageHeight ratio hP 0 imgH hH.le

/-- Witness for C1 at pageHeight 842, ratio 794/595, image height 2000:
both hypotheses hold and the conclusion evaluates. -/
theorem C1_witness :
    (((htmlPaginate 842 (794/595) h842 2000).length : ℤ)
        = Int.ceil ((2000:ℚ) / 842)) ∧
    ((htmlPaginate 842 (794/595) h842 2000).map Slice.sliceH).sum = 2000 :=
  C1_slice_count_and_height_sum 842 (794/595) 2000 h842 (by norm_num)

/-- C2 counterexample: on a source canvas of width 794 and height 0,
`htmlStringToPdf` does not fail with any error — there is no
`EmptyImageError` (or `InvalidLayoutError`) anywhere in the code — it
returns normally with an empty slice list. -/
theorem C2_counterexample : htmlStringToPdfSlices 794 0 = [] := by
  unfold htmlStringToPdfSlices
  apply sliceLoop_nonpos_eq
  norm_num

/-- C2 amended: the image paginator performs no validation and raises
no error: for any positive canvas width, a zero-height canvas yields a
normal return with zero slices (margins are hard-coded to 0, so the
usable area always equals the full positive A4 page). -/
theorem C2_amended_no_error_zero_height (canvasW : ℚ) (hw : 0 < canvasW) :
    htmlStringToPdfSlices canvasW 0 = [] := by
  unfold htmlStringToPdfSlices
  apply sliceLoop_nonpos_eq
  norm_num

/-- Witness for C2 amended at canvas width 794. -/
theorem C2_amended_witness : htmlStringToPdfSlices 794 0 = [] :=
  C2_amended_no_error_zero_height 794 (by norm_num)

/-- C3 counterexample: on page 595×842 with zero margins and a 794×3000
source image, the slicing loop emits 3 slices, not 4, and the final
slice is 753 source pixels tall, not 474. -/
theorem C3_counterexample :
    (htmlPaginate 842 (794/595) h842 ((3000:ℚ) / (794/595))).length ≠ 4 ∧
    ((htmlPaginate 842 (794/595) h842 ((3000:ℚ) / (794/595))).map
        Slice.slicePx).getLastD 0 ≠ 474 := by
  rw [scenario_eval]
  constructor
  · simp
  · simp

/-- C3 amended: on page 595×842 with zero margins and a 794×3000 source
image, the paginator produces exactly 3 slices with width-mapping ratio
794/595; the first two slices are 842 destination points (1124 source
pixels) tall and the last slice is 223952/397 ≈ 564.11 destination
points, i.e. 753 source pixels, tall. -/
theorem C3_amended_scenario :
    (htmlPaginate 842 (794/595) h842 ((3000:ℚ) / (794/595))).length = 3 ∧
    ((htmlPaginate 842 (794/595) h842 ((3000:ℚ) / (794/595))).map
        Slice.sliceH) = [842, 842, 223952/397] ∧
    ((htmlPaginate 842 (794/595) h842 ((3000:ℚ) / (794/595))).map
        Slice.slicePx) = [1124, 1124, 753] := by
  rw [scenario_eval]
  refine ⟨rfl, rfl, rfl⟩

/-- C4 counterexample: the first line of a text conversion is placed at
baseline y = 70 = top margin + 20, which is not top margin + lineHeight
= 50 + 15 = 65 as the claim states. -/
theorem C4_counterexample :
    (convertTxtLayout ["a"]).map TextPlaced.y = [70] ∧ (70:ℚ) ≠ 50 + 15 := by
  constructor
  · simp only [convertTxtLayout, txtLoop]
    rw [if_neg (by norm_num)]
    simp
    norm_num
  · norm_num

/-- C4 amended: the text paginator places the first line at baseline
y = top margin + 20 (a hard-coded offset, not lineHeight), increments y
by lineHeight after each line, and, before placing a line whose
y + lineHeight would exceed pageHeight − bottom margin, starts a new
page and resets y to top margin + 20. -/
theorem C4_amended_text_layout :
    (∀ (l : String) (ls : List String),
      (convertTxtLayout (l :: ls)).head?
        = some { line := l, page := 0, y := 50 + 20 }) ∧
    (∀ lines : List String,
      (convertTxtLayout lines).Chain' (txtStep (84189/100) 50 15)) := by
  constructor
  · intro l ls
    unfold convertTxtLayout
    rw [txtLoop_head]
    rw [if_neg (by norm_num)]
  · intro lines
    exact txtLoop_chain (84189/100) 50 15 lines (50 + 20) 0

/-- C5: concatenating the lines of all emitted text pages in page order
reproduces the wrapped line sequence exactly, in order, with no loss,
duplication, or splitting. -/
theorem C5_lines_preserved (lines : List String) :
    (convertTxtLayout lines).map TextPlaced.line = lines :=
  txtLoop_map_line (84189/100) 50 15 lines (50 + 20) 0

/-- C6: in single-image scale-to-fit mode (`convertImage`), for every
image of positive dimensions the code emits exactly one placement with
scale = min(usableWidth/imageWidth, usableHeight/imageHeight, 1), never
upscales beyond original resolution, and centers the image at
x = left + (usableWidth − scaledWidth)/2,
y = top + (usableHeight − scaledHeight)/2. -/
theorem C6_convertImage_fit (imgW imgH : ℚ) (hw : 0 < imgW) (hh : 0 < imgH) :
    (convertImageLayout imgW imgH).length = 1 ∧
    ∀ p ∈ convertImageLayout imgW imgH,
      p.w = imgW * min (min ((59528/100 - 40*2) / imgW)
        ((84189/100 - 40*2) / imgH)) 1 ∧
      p.h = imgH * min (min ((59528/100 - 40*2) / imgW)
        ((84189/100 - 40*2) / imgH)) 1 ∧
      p.x = 40 + ((59528/100 - 40*2) - p.w) / 2 ∧
      p.y = 40 + ((84189/100 - 40*2) - p.h) / 2 ∧
      p.w ≤ imgW ∧ p.h ≤ imgH ∧
      p.w ≤ 59528/100 - 40*2 ∧ p.h ≤ 84189/100 - 40*2 := by
  constructor
  · rfl
  · intro p hp
    simp only [convertImageLayout, List.mem_singleton] at hp
    subst hp
    set s : ℚ := min (min ((59528/100 - 40*2) / imgW)
      ((84189/100 - 40*2) / imgH)) 1 with hs
    have hs1 : s ≤ 1 := min_le_right _ _
    have hsw : s ≤ (59528/100 - 40*2) / imgW :=
      le_trans (min_le_left _ _) (min_le_left _ _)
    have hsh : s ≤ (84189/100 - 40*2) / imgH :=
      le_trans (min_le_left _ _) (min_le_right _ _)
    refine ⟨by norm_num, by norm_num, by norm_num, by norm_num, ?_, ?_, ?_, ?_⟩
    · simpa using mul_le_of_le_one_right hw.le hs1
    · simpa using mul_le_of_le_one_right hh.le hs1
    · have := mul_le_mul_of_nonneg_left hsw hw.le
      rw [mul_div_cancel₀ _ (ne_of_gt hw)] at this
      simpa using this
    · have := mul_le_mul_of_nonneg_left hsh hh.le
      rw [mul_div_cancel₀ _ (ne_of_gt hh)] at this
      simpa using this

/-- Witness for C6 at a 100×200 image. -/
theorem C6_witness : (convertImageLayout 100 200).length = 1 :=
  (C6_convertImage_fit 100 200 (by norm_num) (by norm_num)).1

/-- C7: slices are emitted in order of strictly increasing source
y-offset, each slice's new-page directive is present exactly when the
slice is not the first, and slice i lands on physical page i (pages are
sequential from 0, one per slice). -/
theorem C7_slice_order_and_pages (pageHeight ratio imgH : ℚ)
    (hP : 0 < pageHeight) :
    (htmlPaginate pageHeight ratio hP imgH).Pairwise
      (fun a b => a.srcY < b.srcY) ∧
    (∀ i (hi : i < (htmlPaginate pageHeight ratio hP imgH).length),
      ((htmlPaginate pageHeight ratio hP imgH).get ⟨i, hi⟩).newPageBefore
        = true ↔ i ≠ 0) ∧
    (∀ i, i < (htmlPaginate pageHeight ratio hP imgH).length →
      pagesBefore (htmlPaginate pageHeight ratio hP imgH) i = i) := by
  have hidx : ∀ i (hi : i < (htmlPaginate pageHeight ratio hP imgH).length),
      ((htmlPaginate pageHeight ratio hP imgH).get ⟨i, hi⟩).newPageBefore
        = true ↔ i ≠ 0 := by
    unfold htmlPaginate
    by_cases h0 : 0 < imgH
    · rw [sliceLoop_pos_eq pageHeight ratio hP 0 imgH h0]
      have hpos : (0:ℚ) < 0 + min imgH pageHeight := by
        have := lt_min h0 hP
        linarith
      have htail := sliceLoop_newPage_of_pos pageHeight ratio hP
        (0 + min imgH pageHeight) (imgH - min imgH pageHeight) hpos
      intro i hi
      cases i with
      | zero => simp
      | succ j =>
          have hj : j < (sliceLoop pageHeight ratio hP
              (0 + min imgH pageHeight) (imgH - min imgH pageHeight)).length :=
            Nat.lt_of_succ_lt_succ hi
          have hmem := List.get_mem (sliceLoop pageHeight ratio hP
            (0 + min imgH pageHeight) (imgH - min imgH pageHeight)) j hj
          have hnp := htail _ hmem
          simpa [List.get_eq_getElem, List.getElem_cons_succ, zero_add]
            using hnp
    · rw [sliceLoop_nonpos_eq pageHeight ratio hP 0 imgH (not_lt.mp h0)]
      intro i hi
      simp at hi
  refine ⟨sliceLoop_pairwise pageHeight ratio hP 0 imgH, hidx, ?_⟩
  exact pagesBefore_eq_index _ hidx

/-- Witness for C7 at pageHeight 842, ratio 794/595, image height 2000. -/
theorem C7_witness :
    (htmlPaginate 842 (794/595) h842 2000).Pairwise
      (fun a b => a.srcY < b.srcY) :=
  (C7_slice_order_and_pages 842 (794/595) 2000 h842).1

/-- C8 counterexample: in the A4 scenario (ratio 794/595, canvas height
3000 px), the source rectangle of the final `drawImage` call ends at
pixel row srcY·ratio + slicePx = 1785131/595 ≈ 3000.22, which exceeds
the source canvas height 3000: the code does not clamp pixel-row
extraction to the source image's bounds. -/
theorem C8_counterexample :
    ((htmlPaginate 842 (794/595) h842 ((3000:ℚ) / (794/595))).map
        (fun sl => sl.srcY * (794/595) + (sl.slicePx : ℚ))).getLastD 0
      = 1785131/595 ∧
    ((3000:ℚ) / (794/595)) * (794/595) = 3000 ∧
    (3000:ℚ) < 1785131/595 := by
  rw [scenario_eval]
  refine ⟨?_, by norm_num, by norm_num⟩
  simp
  norm_num

/-- C8 amended: the slicing loop terminates without emitting a slice
once the remaining destination height is ≤ 0 (no zero-height trailing
page is ever emitted), and although pixel-row extraction is not clamped,
the final slice's source rectangle exceeds the source canvas height
(imgH·ratio) by at most half a pixel. -/
theorem C8_amended_no_empty_slice_and_half_pixel_bound
    (pageHeight ratio imgH : ℚ) (hP : 0 < pageHeight) (hr : 0 ≤ ratio) :
    (imgH ≤ 0 → htmlPaginate pageHeight ratio hP imgH = []) ∧
    (∀ sl ∈ htmlPaginate pageHeight ratio hP imgH, 0 < sl.sliceH) ∧
    (∀ sl ∈ htmlPaginate pageHeight ratio hP imgH,
      sl.srcY * ratio + (sl.slicePx : ℚ) ≤ imgH * ratio + 1/2) := by
  refine ⟨?_, ?_, ?_⟩
  · intro h
    exact sliceLoop_nonpos_eq pageHeight ratio hP 0 imgH h
  · intro sl hsl
    exact (sliceLoop_sliceH_pos pageHeight ratio hP 0 imgH sl hsl).1
  · intro sl hsl
    unfold htmlPaginate at hsl
    rcases le_or_lt imgH 0 with hneg | hpos
    · rw [sliceLoop_nonpos_eq pageHeight ratio hP 0 imgH hneg] at hsl
      simp at hsl
    · have hb := sliceLoop_px_bottom_le pageHeight ratio hP hr 0 imgH sl hsl
      rw [max_eq_left hpos.le, zero_add] at hb
      exact hb

/-- Witness for C8 amended: the first slice of the A4 scenario has
positive destination height. -/
theorem C8_amended_witness :
    (0:ℚ) < (Slice.mk 0 842 1124 false).sliceH :=
  (C8_amended_no_empty_slice_and_half_pixel_bound 842 (794/595)
      ((3000:ℚ) / (794/595)) h842 (by norm_num)).2.1
    (Slice.mk 0 842 1124 false)
    (by rw [scenario_eval]; exact List.mem_cons_self _ _)

/-- C9: both paginators are deterministic — field-identical inputs give
field-equal output sequences. -/
theorem C9_deterministic :
    (∀ (pageHeight ratio imgH pageHeight2 ratio2 imgH2 : ℚ)
      (hP : 0 < pageHeight) (hP2 : 0 < pageHeight2),
      pageHeight = pageHeight2 → ratio = ratio2 → imgH = imgH2 →
      htmlPaginate pageHeight ratio hP imgH
        = htmlPaginate pageHeight2 ratio2 hP2 imgH2) ∧
    (∀ lines lines2 : List String, lines = lines2 →
      convertTxtLayout lines = convertTxtLayout lines2) := by
  constructor
  · intro pH r iH pH2 r2 iH2 hP hP2 h1 h2 h3
    subst h1
    subst h2
    subst h3
    rfl
  · intro l1 l2 h
    rw [h]

/-- Witness for C9 at concrete identical inputs. -/
theorem C9_witness :
    htmlPaginate 842 (794/595) h842 2000
      = htmlPaginate 842 (794/595) h842 2000 ∧
    convertTxtLayout ["a"] = convertTxtLayout ["a"] :=
  ⟨C9_deterministic.1 842 (794/595) 2000 842 (794/595) 2000 h842 h842
      rfl rfl rfl,
   C9_deterministic.2 ["a"] ["a"] rfl⟩

/-- C10: a file name containing no dot is accepted whenever its
lowercased form equals a supported extension without the leading dot,
because `getExtension` prepends a dot to the last dot-separated segment,
which for a dotless name is the whole name. -/
theorem C10_dotless_name_accepted (name : List Char) (hnd : '.' ∉ name)
    (hmem : name.map Char.toLower ∈
      ["docx".toList, "txt".toList, "html".toList,
       "png".toList, "jpg".toList, "jpeg".toList]) :
    isValidFile name = true := by
  unfold isValidFile
  rw [getExtension_no_dot name hnd]
  simp only [List.mem_cons, List.not_mem_nil, or_false] at hmem
  rcases hmem with h | h | h | h | h | h <;> rw [h] <;> decide

/-- Witness for C10: the dotless name "txt" is accepted. -/
theorem C10_witness : isValidFile "txt".toList = true :=
  C10_dotless_name_accepted "txt".toList (by decide) (by decide)
